import Mathlib

/-!
Shallow embedding of the circular doubly-linked intrusive list of
haproxy's include/common/mini-clist.h: `struct list`, the unsynchronized
macros (LIST_INIT, LIST_ADD, LIST_ADDQ, LIST_DEL, LIST_DEL_INIT,
LIST_ISEMPTY, LIST_ADDED, list_for_each_entry) and the locked family
(LLIST_BUSY, LIST_ADD_LOCKED, LIST_ADDQ_LOCKED, LIST_DEL_LOCKED,
LIST_POP_LOCKED), together with proofs of the list invariants.

A node is a pair of pointer fields (`n`, `p`); the heap maps addresses
(natural numbers) to nodes; pointer values are addresses.  The reserved
busy marker of the locked family is the pointer value 1, exactly as in
the source.  Each macro becomes a function on heaps performing the same
sequence of reads and writes that the C code performs; the value of a C
statement expression becomes the first component of a pair.  The locked
macros, whose bodies are retry loops, are embedded as one loop iteration
(a step function returning either "retry from this heap" or "done with
this heap") plus a fuel-indexed runner; a single thread executing them
sees each atomic exchange return the current slot content.  LIST_ELEM is
plain address arithmetic recovering the enclosing structure, which in
this offset-free model is the identity on node addresses, so iteration
yields node addresses.
-/

namespace MiniClist

/-- A list node, C `struct list`: the next pointer `n` and the prev pointer `p`. -/
structure Node where
  n : Nat
  p : Nat
  deriving DecidableEq

/-- The heap: every address holds a node. -/
abbrev Heap := Nat → Node

/-- Write a whole node at address `a`. -/
def upd (h : Heap) (a : Nat) (v : Node) : Heap :=
  fun x => if x = a then v else h x

/-- Write the next field at address `a` (`a->n = v`). -/
def setN (h : Heap) (a v : Nat) : Heap := upd h a ⟨v, (h a).p⟩

/-- Write the prev field at address `a` (`a->p = v`). -/
def setP (h : Heap) (a v : Nat) : Heap := upd h a ⟨(h a).n, v⟩

/-- The macro `LIST_INIT(l)`: `(l)->n = (l)->p = (l)`. -/
def LIST_INIT (h : Heap) (l : Nat) : Heap := upd h l ⟨l, l⟩

/-- The macro `LIST_ADD(lh, el)`:
`(el)->n = (lh)->n; (el)->n->p = (lh)->n = (el); (el)->p = (lh); (el);`
(insert right after the head; returns the element). -/
def LIST_ADD (h : Heap) (lh el : Nat) : Nat × Heap :=
  let h1 := setN h el ((h lh).n)
  let h2 := setN h1 lh el
  let h3 := setP h2 ((h2 el).n) el
  let h4 := setP h3 el lh
  (el, h4)

/-- The macro `LIST_ADDQ(lh, el)`:
`(el)->p = (lh)->p; (el)->p->n = (lh)->p = (el); (el)->n = (lh); (el);`
(insert right before the head, i.e. at the tail; returns the element). -/
def LIST_ADDQ (h : Heap) (lh el : Nat) : Nat × Heap :=
  let h1 := setP h el ((h lh).p)
  let h2 := setP h1 lh el
  let h3 := setN h2 ((h2 el).p) el
  let h4 := setN h3 el lh
  (el, h4)

/-- The macro `LIST_DEL(el)`:
`__ret = (el); (el)->n->p = (el)->p; (el)->p->n = (el)->n; (__ret);`. -/
def LIST_DEL (h : Heap) (el : Nat) : Nat × Heap :=
  let h1 := setP h ((h el).n) ((h el).p)
  let h2 := setN h1 ((h1 el).p) ((h1 el).n)
  (el, h2)

/-- The macro `LIST_DEL_INIT(el)`: reads `__n = el->n` and `__p = el->p` once, then
`__n->p = __p; __p->n = __n; __ret->n = __ret->p = __ret;`. -/
def LIST_DEL_INIT (h : Heap) (el : Nat) : Nat × Heap :=
  let n := (h el).n
  let p := (h el).p
  let h1 := setP h n p
  let h2 := setN h1 p n
  let h3 := upd h2 el ⟨el, el⟩
  (el, h3)

/-- The macro `LIST_ISEMPTY(lh)`: `(lh)->n == (lh)`. -/
def LIST_ISEMPTY (h : Heap) (lh : Nat) : Bool := (h lh).n == lh

/-- The macro `LIST_ADDED(el)`: `(el)->n != (el)`. -/
def LIST_ADDED (h : Heap) (el : Nat) : Bool := (h el).n != el

/-- Forward iteration of `list_for_each_entry`, starting from a cursor:
follow the next pointers, stopping when the head is reached again.
`fuel` bounds the number of steps taken (the C loop has no such bound). -/
def traverseAux (h : Heap) (head : Nat) : Nat → Nat → List Nat
  | _, 0 => []
  | cur, fuel + 1 =>
    if cur = head then [] else cur :: traverseAux h head ((h cur).n) fuel

/-- Forward traversal of `list_for_each_entry` from the head: visits
`(head)->n` and keeps following `->n` until the head is revisited. -/
def traverse (h : Heap) (head fuel : Nat) : List Nat :=
  traverseAux h head ((h head).n) fuel

/-- The value `LLIST_BUSY`: the reserved busy-marker pointer value `(struct list *)1`. -/
def LLIST_BUSY : Nat := 1

/-- The value `ILH`: the static head `{ .n = (struct list *)1, .p = (struct list *)2 }`. -/
def ILH : Node := ⟨1, 2⟩

/-- One iteration of the `LIST_ADD_LOCKED(lh, el)` while loop, as executed
by a single uncontended thread: every `_HA_ATOMIC_XCHG(&slot, LLIST_BUSY)`
returns the current slot content and stores the busy marker.  `Sum.inl`
is the heap at a `continue` (retry), `Sum.inr` the heap at the `break`. -/
def LIST_ADD_LOCKED_body (h : Heap) (lh el : Nat) : Heap ⊕ Heap :=
  let n := (h lh).n
  let h1 := setN h lh LLIST_BUSY
  if n = LLIST_BUSY then Sum.inl h1 else
  let p := (h1 n).p
  let h2 := setP h1 n LLIST_BUSY
  if p = LLIST_BUSY then Sum.inl (setN h2 lh n) else
  Sum.inr (setN (setP (setP (setN h2 el n) el p) n el) p el)

/-- One iteration of the `LIST_ADDQ_LOCKED(lh, el)` while loop. -/
def LIST_ADDQ_LOCKED_body (h : Heap) (lh el : Nat) : Heap ⊕ Heap :=
  let p := (h lh).p
  let h1 := setP h lh LLIST_BUSY
  if p = LLIST_BUSY then Sum.inl h1 else
  let n := (h1 p).n
  let h2 := setN h1 p LLIST_BUSY
  if n = LLIST_BUSY then Sum.inl (setP h2 lh p) else
  Sum.inr (setP (setN (setP (setN h2 el n) el p) p el) n el)

/-- Final writes of `LIST_DEL_LOCKED` once every needed slot is claimed:
`n->p = p; p->n = n; (el)->p = (el); (el)->n = (el);`. -/
def delLockedFinish (h : Heap) (el n p : Nat) : Heap :=
  setN (setP (setN (setP h n p) p n) el el) el el

/-- One iteration of the `LIST_DEL_LOCKED(el)` while loop (single
uncontended thread; `p2` is only claimed when `p != el`, `n2` only when
`n != el`, and each busy answer restores the already-claimed slots in
the order written in the source before retrying). -/
def LIST_DEL_LOCKED_body (h : Heap) (el : Nat) : Heap ⊕ Heap :=
  let n := (h el).n
  let h1 := setN h el LLIST_BUSY
  if n = LLIST_BUSY then Sum.inl h1 else
  let p := (h1 el).p
  let h2 := setP h1 el LLIST_BUSY
  if p = LLIST_BUSY then Sum.inl (setN h2 el n) else
  if p ≠ el then
    let p2 := (h2 p).n
    let h3 := setN h2 p LLIST_BUSY
    if p2 = LLIST_BUSY then Sum.inl (setN (setP h3 el p) el n) else
    if n ≠ el then
      let n2 := (h3 n).p
      let h4 := setP h3 n LLIST_BUSY
      if n2 = LLIST_BUSY then Sum.inl (setN (setP (setN h4 p p2) el p) el n)
      else Sum.inr (delLockedFinish h4 el n p)
    else Sum.inr (delLockedFinish h3 el n p)
  else
    if n ≠ el then
      let n2 := (h2 n).p
      let h4 := setP h2 n LLIST_BUSY
      if n2 = LLIST_BUSY then Sum.inl (setN (setP h4 el p) el n)
      else Sum.inr (delLockedFinish h4 el n p)
    else Sum.inr (delLockedFinish h2 el n p)

/-- One iteration of the `LIST_POP_LOCKED(lh, pt, el)` while loop.
`Sum.inr` carries the final heap and `_ret`: `none` for NULL (empty
list), `some n` for `LIST_ELEM(n, pt, el)` (the identity here). -/
def LIST_POP_LOCKED_body (h : Heap) (lh : Nat) : Heap ⊕ (Heap × Option Nat) :=
  let n := (h lh).n
  let h1 := setN h lh LLIST_BUSY
  if n = LLIST_BUSY then Sum.inl h1 else
  if n = lh then Sum.inr (setN h1 lh lh, none) else
  let p := (h1 n).p
  let h2 := setP h1 n LLIST_BUSY
  if p = LLIST_BUSY then Sum.inl (setN h2 lh n) else
  let n2 := (h2 n).n
  let h3 := setN h2 n LLIST_BUSY
  if n2 = LLIST_BUSY then Sum.inl (setN (setP h3 n p) lh n) else
  let p2 := (h3 n2).p
  let h4 := setP h3 n2 LLIST_BUSY
  if p2 = LLIST_BUSY then Sum.inl (setN (setP (setN h4 n n2) n p) lh n) else
  let h5 := setN h4 lh n2
  let h6 := setP h5 n2 lh
  let h7 := setP h6 n n
  let h8 := setN h7 n n
  Sum.inr (h8, some n)

/-- Run a locked-loop body until it breaks, with at most `fuel` iterations;
`none` means the loop was still spinning when the fuel ran out. -/
def lockedRun (body : Heap → Heap ⊕ Heap) : Nat → Heap → Option Heap
  | 0, _ => none
  | fuel + 1, h =>
    match body h with
    | Sum.inl h1 => lockedRun body fuel h1
    | Sum.inr h1 => some h1

/-- Run the `LIST_POP_LOCKED` loop until it breaks, with at most `fuel`
iterations. -/
def popRun (lh : Nat) : Nat → Heap → Option (Heap × Option Nat)
  | 0, _ => none
  | fuel + 1, h =>
    match LIST_POP_LOCKED_body h lh with
    | Sum.inl h1 => popRun lh fuel h1
    | Sum.inr r => some r

/-- Nodes `a` and `b` are consecutive: `a->n == b` and `b->p == a`. -/
def links (h : Heap) (a b : Nat) : Prop := (h a).n = b ∧ (h b).p = a

/-- The nodes of `l` sit, doubly linked, between `a` and `b`. -/
def chainLinks (h : Heap) : Nat → List Nat → Nat → Prop
  | a, [], b => links h a b
  | a, x :: xs, b => links h a x ∧ chainLinks h x xs b

/-- Circular doubly-linked list with head `head` and elements `l`. -/
def isList (h : Heap) (head : Nat) (l : List Nat) : Prop :=
  chainLinks h head l head ∧ (head :: l).Nodup

/-- Swap the `n` and `p` fields of every node. -/
def hflip (h : Heap) : Heap := fun x => ⟨(h x).p, (h x).n⟩

/-- The predicate `Built h head l` holds when the heap `h` carries a list with head
`head` and elements `l` (in forward order) obtained from an initialized
head by some sequence of unsynchronized operations, each used within its
documented contract: inserted nodes are not currently on the list,
removed nodes are. -/
inductive Built : Heap → Nat → List Nat → Prop where
  | init (h : Heap) (head : Nat) : Built (LIST_INIT h head) head []
  | add {h head l el} : Built h head l → el ∉ head :: l →
      Built (LIST_ADD h head el).2 head (el :: l)
  | addq {h head l el} : Built h head l → el ∉ head :: l →
      Built (LIST_ADDQ h head el).2 head (l ++ [el])
  | del {h head l el} : Built h head l → el ∈ l →
      Built (LIST_DEL h el).2 head (l.erase el)
  | del_reinit {h head l el} : Built h head l → el ∈ l →
      Built (LIST_DEL_INIT h el).2 head (l.erase el)

/-- Nodes reachable from `head` by following next pointers. -/
inductive reachN (h : Heap) (head : Nat) : Nat → Prop where
  | refl : reachN h head head
  | step {x : Nat} : reachN h head x → reachN h head ((h x).n)

/-- A concrete heap holding the list with head 0 and elements 2, 3
(every other address holds a detached node). -/
def exampleHeap : Heap := fun x =>
  if x = 0 then ⟨2, 3⟩ else if x = 2 then ⟨3, 0⟩ else
  if x = 3 then ⟨0, 2⟩ else ⟨x, x⟩

/-- A concrete heap holding the list with head 0 and sole element 2. -/
def exampleHeap2 : Heap := fun x =>
  if x = 0 then ⟨2, 2⟩ else if x = 2 then ⟨0, 0⟩ else ⟨x, x⟩

/-- A concrete heap in which every node is detached. -/
def detachedHeap : Heap := fun x => ⟨x, x⟩

theorem Node.ext' (a b : Node) (hn : a.n = b.n) (hp : a.p = b.p) : a = b := by
  cases a; cases b; cases hn; cases hp; rfl

@[simp] theorem upd_read (h : Heap) (a : Nat) (v : Node) (x : Nat) :
    upd h a v x = if x = a then v else h x := rfl

@[simp] theorem setN_read_n (h : Heap) (a v x : Nat) :
    (setN h a v x).n = if x = a then v else (h x).n := by
  by_cases hx : x = a <;> simp [setN, upd, hx]

@[simp] theorem setN_read_p (h : Heap) (a v x : Nat) :
    (setN h a v x).p = (h x).p := by
  by_cases hx : x = a <;> simp [setN, upd, hx]

@[simp] theorem setP_read_n (h : Heap) (a v x : Nat) :
    (setP h a v x).n = (h x).n := by
  by_cases hx : x = a <;> simp [setP, upd, hx]

@[simp] theorem setP_read_p (h : Heap) (a v x : Nat) :
    (setP h a v x).p = if x = a then v else (h x).p := by
  by_cases hx : x = a <;> simp [setP, upd, hx]

/-!
### Well-formed lists

`chainLinks h a l b` says that following the next pointers from `a`
visits exactly the nodes of `l` and then reaches `b`, each consecutive
pair being doubly linked.  `isList h head l` is the circular
doubly-linked list invariant for head `head` with elements `l` in
forward order.
-/

@[simp] theorem chainLinks_nil (h : Heap) (a b : Nat) :
    chainLinks h a [] b ↔ links h a b := Iff.rfl

@[simp] theorem chainLinks_cons (h : Heap) (a x b : Nat) (xs : List Nat) :
    chainLinks h a (x :: xs) b ↔ links h a x ∧ chainLinks h x xs b := Iff.rfl

/-- A chain only reads the `n` fields of `a :: l` and the `p` fields of
`l ++ [b]`; heaps agreeing there carry the same chains. -/
theorem chainLinks_congr {h h' : Heap} (a : Nat) (l : List Nat) (b : Nat)
    (hn : ∀ x ∈ a :: l, (h' x).n = (h x).n)
    (hp : ∀ x ∈ l ++ [b], (h' x).p = (h x).p)
    (hc : chainLinks h a l b) : chainLinks h' a l b := by
  induction l generalizing a with
  | nil =>
    exact ⟨(hn a (by simp)).trans hc.1, (hp b (by simp)).trans hc.2⟩
  | cons x xs ih =>
    refine ⟨⟨(hn a (by simp)).trans hc.1.1, (hp x (by simp)).trans hc.1.2⟩, ?_⟩
    refine ih x (fun y hy => hn y ?_) (fun y hy => hp y ?_) hc.2
    · simp only [List.mem_cons] at hy ⊢; tauto
    · simp only [List.cons_append, List.mem_cons] at hy ⊢; tauto

/-- Splitting a chain at a distinguished interior node. -/
theorem chainLinks_append {h : Heap} (e a : Nat) (l1 l2 : List Nat) (b : Nat) :
    chainLinks h a (l1 ++ e :: l2) b ↔
      chainLinks h a l1 e ∧ chainLinks h e l2 b := by
  induction l1 generalizing a with
  | nil => simp
  | cons x xs ih => simp [ih, and_assoc]

/-- The first step of a chain lands in `l ++ [b]`. -/
theorem chainLinks_next_mem {h : Heap} {a b : Nat} {l : List Nat}
    (hc : chainLinks h a l b) : (h a).n ∈ l ++ [b] := by
  cases l with
  | nil => simp [hc.1]
  | cons x xs => simp [hc.1.1]

/-- The predecessor of the end of a chain lies in `a :: l`. -/
theorem chainLinks_prev_mem {h : Heap} {b : Nat} :
    ∀ (a : Nat) (l : List Nat), chainLinks h a l b → (h b).p ∈ a :: l := by
  intro a l
  induction l generalizing a with
  | nil => intro hc; simp [hc.2]
  | cons x xs ih =>
    intro hc
    have := ih x hc.2
    simp only [List.mem_cons] at this ⊢
    tauto

/-- Every node of a chain satisfies `x->n->p == x` and its successor
stays on the chain. -/
theorem chainLinks_forward {h : Heap} {b : Nat} :
    ∀ (a : Nat) (l : List Nat), chainLinks h a l b →
      ∀ x ∈ a :: l, (h ((h x).n)).p = x ∧ (h x).n ∈ l ++ [b] := by
  intro a l
  induction l generalizing a with
  | nil =>
    intro hc x hx
    rw [List.mem_singleton] at hx
    subst hx
    exact ⟨by rw [hc.1]; exact hc.2, by simp [hc.1]⟩
  | cons y ys ih =>
    intro hc x hx
    rcases List.mem_cons.mp hx with rfl | hx
    · exact ⟨by rw [hc.1.1]; exact hc.1.2, by simp [hc.1.1]⟩
    · obtain ⟨h1, h2⟩ := ih y hc.2 x hx
      refine ⟨h1, ?_⟩
      simp only [List.cons_append, List.mem_cons] at h2 ⊢
      tauto

/-- Every node of a chain satisfies `x->p->n == x` and its predecessor
stays on the chain. -/
theorem chainLinks_backward {h : Heap} {b : Nat} :
    ∀ (a : Nat) (l : List Nat), chainLinks h a l b →
      ∀ x ∈ l ++ [b], (h ((h x).p)).n = x ∧ (h x).p ∈ a :: l := by
  intro a l
  induction l generalizing a with
  | nil =>
    intro hc x hx
    simp only [List.nil_append, List.mem_singleton] at hx
    subst hx
    exact ⟨by rw [hc.2]; exact hc.1, by simp [hc.2]⟩
  | cons y ys ih =>
    intro hc x hx
    rw [List.cons_append, List.mem_cons] at hx
    rcases hx with rfl | hx
    · exact ⟨by rw [hc.1.2]; exact hc.1.1, by simp [hc.1.2]⟩
    · obtain ⟨h1, h2⟩ := ih y hc.2 x hx
      refine ⟨h1, ?_⟩
      simp only [List.mem_cons] at h2 ⊢
      tauto

/-!
### Normal forms of the unsynchronized mutators

Each macro's write sequence, with the intermediate reads resolved.
-/

theorem LIST_ADD_snd {h : Heap} {lh el : Nat} (hne : el ≠ lh) :
    (LIST_ADD h lh el).2 =
      setP (setP (setN (setN h el ((h lh).n)) lh el) ((h lh).n) el) el lh := by
  simp [LIST_ADD, hne]

theorem LIST_ADDQ_snd {h : Heap} {lh el : Nat} (hne : el ≠ lh) :
    (LIST_ADDQ h lh el).2 =
      setN (setN (setP (setP h el ((h lh).p)) lh el) ((h lh).p) el) el lh := by
  simp [LIST_ADDQ, hne]

theorem LIST_DEL_snd (h : Heap) (el : Nat) :
    (LIST_DEL h el).2 =
      setN (setP h ((h el).n) ((h el).p)) ((h el).p) ((h el).n) := by
  simp [LIST_DEL]

theorem LIST_DEL_INIT_snd (h : Heap) (el : Nat) :
    (LIST_DEL_INIT h el).2 =
      upd (setN (setP h ((h el).n) ((h el).p)) ((h el).p) ((h el).n))
        el ⟨el, el⟩ := by
  simp [LIST_DEL_INIT]

/-!
### Mirror symmetry

Swapping the two pointer fields of every node turns `LIST_ADDQ` into
`LIST_ADD` and reverses chains; tail insertion is handled through it.
-/

@[simp] theorem hflip_read_n (h : Heap) (x : Nat) : (hflip h x).n = (h x).p := rfl

@[simp] theorem hflip_read_p (h : Heap) (x : Nat) : (hflip h x).p = (h x).n := rfl

theorem hflip_hflip (h : Heap) : hflip (hflip h) = h := by
  funext x; exact Node.ext' _ _ rfl rfl

theorem hflip_setN (h : Heap) (a v : Nat) :
    hflip (setN h a v) = setP (hflip h) a v := by
  funext x
  refine Node.ext' _ _ ?_ ?_ <;> by_cases hx : x = a <;> simp [hflip, hx]

theorem hflip_setP (h : Heap) (a v : Nat) :
    hflip (setP h a v) = setN (hflip h) a v := by
  funext x
  refine Node.ext' _ _ ?_ ?_ <;> by_cases hx : x = a <;> simp [hflip, hx]

theorem hflip_LIST_ADDQ (h : Heap) (lh el : Nat) (hne : el ≠ lh) :
    hflip (LIST_ADDQ h lh el).2 = (LIST_ADD (hflip h) lh el).2 := by
  rw [LIST_ADDQ_snd hne, LIST_ADD_snd hne, hflip_setN, hflip_setN,
    hflip_setP, hflip_setP]
  rfl

theorem links_hflip {h : Heap} {a b : Nat} (hl : links h a b) :
    links (hflip h) b a := ⟨by simp [hl.2], by simp [hl.1]⟩

theorem chainLinks_hflip {h : Heap} {b : Nat} :
    ∀ (a : Nat) (l : List Nat), chainLinks h a l b →
      chainLinks (hflip h) b l.reverse a := by
  intro a l
  induction l generalizing a with
  | nil => intro hc; exact links_hflip hc
  | cons x xs ih =>
    intro hc
    rw [List.reverse_cons, chainLinks_append x b xs.reverse [] a]
    exact ⟨ih x hc.2, links_hflip hc.1⟩

/-!
### Preservation of the list invariant by the unsynchronized mutators
-/

/-- Insertion `LIST_ADD` prepends a node not already on the list. -/
theorem isList_ADD (h : Heap) (head el : Nat) (l : List Nat)
    (hl : isList h head l) (hfresh : el ∉ head :: l) :
    isList (LIST_ADD h head el).2 head (el :: l) := by
  obtain ⟨hc, hN⟩ := hl
  have hel_head : el ≠ head := fun hh => hfresh (by simp [hh])
  have hel_l : el ∉ l := fun hh => hfresh (List.mem_cons_of_mem _ hh)
  have hhead_l : head ∉ l := (List.nodup_cons.mp hN).1
  have hf_mem : (h head).n ∈ l ++ [head] := chainLinks_next_mem hc
  have hf_ne_el : (h head).n ≠ el := by
    intro hh
    rw [hh] at hf_mem
    simp only [List.mem_append, List.mem_singleton] at hf_mem
    rcases hf_mem with hcase | hcase
    · exact hel_l hcase
    · exact hel_head hcase
  rw [LIST_ADD_snd hel_head]
  constructor
  · cases l with
    | nil =>
      have hfh : (h head).n = head := hc.1
      refine ⟨⟨by simp, by simp⟩, ?_, ?_⟩
      · simp [hel_head, hfh]
      · simp [Ne.symm hel_head, hfh]
    | cons x xs =>
      have hfx : (h head).n = x := hc.1.1
      have hx_ne_el : x ≠ el := fun hh => hel_l (by simp [hh])
      have hx_ne_head : x ≠ head := fun hh => hhead_l (by simp [hh])
      have hx_notin_xs : x ∉ xs := (List.nodup_cons.mp (List.nodup_cons.mp hN).2).1
      refine ⟨⟨by simp, by simp⟩, ⟨by simp [hel_head, hfx], ?_⟩, ?_⟩
      · simp [hx_ne_el, hfx]
      · refine chainLinks_congr x xs head (fun y hy => ?_) (fun y hy => ?_) hc.2
        · have hy_ne_el : y ≠ el := fun hh => hel_l (hh ▸ hy)
          have hy_ne_head : y ≠ head := fun hh => hhead_l (hh ▸ hy)
          simp [hy_ne_el, hy_ne_head]
        · simp only [List.mem_append, List.mem_singleton] at hy
          have hy_ne_el : y ≠ el := by
            rcases hy with hy | rfl
            · exact fun hh => hel_l (hh ▸ List.mem_cons_of_mem x hy)
            · exact fun hh => hel_head hh.symm
          have hy_ne_f : y ≠ (h head).n := by
            rw [hfx]
            rcases hy with hy | rfl
            · exact fun hh => hx_notin_xs (hh ▸ hy)
            · exact fun hh => hx_ne_head hh.symm
          simp [hy_ne_el, hy_ne_f]
  · have h1 := List.nodup_cons.mp hN
    refine List.nodup_cons.mpr ⟨?_, List.nodup_cons.mpr ⟨hel_l, h1.2⟩⟩
    simp only [List.mem_cons]
    rintro (rfl | hh)
    · exact hel_head rfl
    · exact h1.1 hh

/-- Insertion `LIST_ADDQ` appends a node not already on the list. -/
theorem isList_ADDQ (h : Heap) (head el : Nat) (l : List Nat)
    (hl : isList h head l) (hfresh : el ∉ head :: l) :
    isList (LIST_ADDQ h head el).2 head (l ++ [el]) := by
  obtain ⟨hc, hN⟩ := hl
  have hel_head : el ≠ head := fun hh => hfresh (by simp [hh])
  have hel_l : el ∉ l := fun hh => hfresh (List.mem_cons_of_mem _ hh)
  have hNr : (head :: l.reverse).Nodup := by
    have h1 := List.nodup_cons.mp hN
    exact List.nodup_cons.mpr ⟨by simpa using h1.1, by simpa using h1.2⟩
  have hfreshr : el ∉ head :: l.reverse := by
    simp only [List.mem_cons, List.mem_reverse]
    rintro (rfl | hh)
    · exact hel_head rfl
    · exact hel_l hh
  have madd := isList_ADD (hflip h) head el l.reverse
    ⟨chainLinks_hflip head l hc, hNr⟩ hfreshr
  rw [← hflip_LIST_ADDQ h head el hel_head] at madd
  obtain ⟨hc', hN'⟩ := madd
  constructor
  · have := chainLinks_hflip head (el :: l.reverse) hc'
    rw [hflip_hflip, List.reverse_cons, List.reverse_reverse] at this
    exact this
  · have h1 := List.nodup_cons.mp hN
    refine List.nodup_cons.mpr ⟨?_, ?_⟩
    · simp only [List.mem_append, List.mem_singleton]
      rintro (hh | rfl)
      · exact h1.1 hh
      · exact hel_head rfl
    · rw [List.nodup_append_comm, List.singleton_append]
      exact List.nodup_cons.mpr ⟨hel_l, h1.2⟩

/-- Unlinking an interior node rejoins the two surrounding chains. -/
theorem chainLinks_del {h : Heap} {head el : Nat} {l2 : List Nat}
    (hc2 : chainLinks h el l2 head) (hN2 : l2.Nodup) (hhead2 : head ∉ l2) :
    ∀ (a : Nat) (l1 : List Nat), chainLinks h a l1 el → (a :: l1).Nodup →
      a ∉ l2 → (∀ y ∈ l1, y ∉ l2 ∧ y ≠ head) →
      chainLinks (setN (setP h ((h el).n) ((h el).p)) ((h el).p) ((h el).n))
        a (l1 ++ l2) head := by
  intro a l1
  induction l1 generalizing a with
  | nil =>
    intro hc1 _ ha2 _
    have hpa : (h el).p = a := hc1.2
    cases l2 with
    | nil =>
      have hnh : (h el).n = head := hc2.1
      exact ⟨by simp [hpa, hnh], by simp [hnh, hpa, hc2.2]⟩
    | cons y ys =>
      have hny : (h el).n = y := hc2.1.1
      refine ⟨⟨by simp [hpa, hny], by simp [hny, hpa]⟩, ?_⟩
      refine chainLinks_congr y ys head (fun z hz => ?_) (fun z hz => ?_) hc2.2
      · have hz_ne : z ≠ (h el).p := by
          rw [hpa]; exact fun hh => ha2 (hh ▸ hz)
        simp [hz_ne]
      · simp only [List.mem_append, List.mem_singleton] at hz
        have hz_ne : z ≠ (h el).n := by
          rw [hny]
          rcases hz with hz | rfl
          · exact fun hh => (List.nodup_cons.mp hN2).1 (hh ▸ hz)
          · exact fun hh => hhead2 (hh ▸ List.mem_cons_self y ys)
        simp [hz_ne]
  | cons x xs ih =>
    intro hc1 hN1 ha2 hd
    have hsplit := List.nodup_cons.mp hN1
    refine ⟨?_, ih x hc1.2 hsplit.2 (hd x (List.mem_cons_self x xs)).1
      (fun y hy => hd y (List.mem_cons_of_mem _ hy))⟩
    have hp_mem : (h el).p ∈ x :: xs := chainLinks_prev_mem x xs hc1.2
    have ha_ne_p : a ≠ (h el).p := fun hh => hsplit.1 (hh ▸ hp_mem)
    have hn_mem : (h el).n ∈ l2 ++ [head] := chainLinks_next_mem hc2
    have hx_ne_n : x ≠ (h el).n := by
      obtain ⟨hx2, hxh⟩ := hd x (List.mem_cons_self x xs)
      intro hh
      rw [hh] at hx2 hxh
      simp only [List.mem_append, List.mem_singleton] at hn_mem
      rcases hn_mem with hm | hm
      · exact hx2 hm
      · exact hxh hm
    exact ⟨by simp [ha_ne_p, hc1.1.1], by simp [hx_ne_n, hc1.1.2]⟩

/-- Removal of a linked node with `LIST_DEL` preserves the invariant for
the remaining nodes. -/
theorem isList_DEL (h : Heap) (head el : Nat) (l1 l2 : List Nat)
    (hl : isList h head (l1 ++ el :: l2)) :
    isList (LIST_DEL h el).2 head (l1 ++ l2) := by
  obtain ⟨hc, hN⟩ := hl
  rw [chainLinks_append el head l1 l2 head] at hc
  have hhead_rest : head ∉ l1 ++ el :: l2 := (List.nodup_cons.mp hN).1
  have hrestN : (l1 ++ el :: l2).Nodup := (List.nodup_cons.mp hN).2
  have hN2 : l2.Nodup := (List.nodup_cons.mp hrestN.of_append_right).2
  have hhead2 : head ∉ l2 := fun hh =>
    hhead_rest (List.mem_append_right _ (List.mem_cons_of_mem _ hh))
  have hhead1 : head ∉ l1 := fun hh => hhead_rest (List.mem_append_left _ hh)
  have hN1 : (head :: l1).Nodup :=
    List.nodup_cons.mpr ⟨hhead1, hrestN.of_append_left⟩
  have hdisj := List.disjoint_of_nodup_append hrestN
  rw [LIST_DEL_snd]
  constructor
  · exact chainLinks_del hc.2 hN2 hhead2 head l1 hc.1 hN1 hhead2
      (fun y hy => ⟨fun hy2 => hdisj hy (List.mem_cons_of_mem _ hy2),
        fun hh => hhead1 (hh ▸ hy)⟩)
  · have hsub : List.Sublist (head :: (l1 ++ l2)) (head :: (l1 ++ el :: l2)) :=
      List.Sublist.cons₂ head ((List.sublist_cons_self el l2).append_left l1)
    exact hN.sublist hsub

/-- Removal of a linked node with `LIST_DEL_INIT` preserves the invariant
for the remaining nodes and detaches the removed node. -/
theorem isList_DEL_INIT (h : Heap) (head el : Nat) (l1 l2 : List Nat)
    (hl : isList h head (l1 ++ el :: l2)) :
    isList (LIST_DEL_INIT h el).2 head (l1 ++ l2) ∧
      (LIST_DEL_INIT h el).2 el = ⟨el, el⟩ := by
  have hdel := isList_DEL h head el l1 l2 hl
  have hel_mem : el ∈ head :: (l1 ++ el :: l2) := by simp
  have hel_notin : el ∉ head :: (l1 ++ l2) := by
    intro hh
    have hN := hl.2
    rcases List.mem_cons.mp hh with rfl | hh2
    · exact (List.nodup_cons.mp hN).1 (by simp)
    · have hrestN := (List.nodup_cons.mp hN).2
      rcases List.mem_append.mp hh2 with hh3 | hh3
      · exact List.disjoint_of_nodup_append hrestN hh3 (by simp)
      · exact (List.nodup_cons.mp hrestN.of_append_right).1 hh3
  have heq : (LIST_DEL_INIT h el).2 = upd (LIST_DEL h el).2 el ⟨el, el⟩ := by
    rw [LIST_DEL_INIT_snd, LIST_DEL_snd]
  constructor
  · constructor
    · rw [heq]
      refine chainLinks_congr head (l1 ++ l2) head (fun y hy => ?_)
        (fun y hy => ?_) hdel.1
      · have : y ≠ el := fun hh => hel_notin (hh ▸ hy)
        simp [this]
      · have hy2 : y ∈ head :: (l1 ++ l2) := by
          simp only [List.mem_append, List.mem_singleton, List.mem_cons] at hy ⊢
          tauto
        have : y ≠ el := fun hh => hel_notin (hh ▸ hy2)
        simp [this]
    · exact hdel.2
  · rw [heq]; simp

/-!
### Histories of unsynchronized operations

`Built h head l` holds when the heap `h` carries a list with head `head`
and elements `l` (in forward order) obtained from an initialized head by
some sequence of unsynchronized operations, each used within its
documented contract: inserted nodes are not currently on the list,
removed nodes are.
-/

/-- Any history of unsynchronized operations yields a well-formed list. -/
theorem Built_isList {h : Heap} {head : Nat} {l : List Nat}
    (hb : Built h head l) : isList h head l := by
  induction hb with
  | init h head =>
    refine ⟨⟨?_, ?_⟩, by simp⟩ <;> simp [LIST_INIT]
  | add hb hfresh ih => exact isList_ADD _ _ _ _ ih hfresh
  | addq hb hfresh ih => exact isList_ADDQ _ _ _ _ ih hfresh
  | del hb hmem ih =>
    rename_i h' head' l' el'
    obtain ⟨s, t, rfl⟩ := List.append_of_mem hmem
    have hs : el' ∉ s := by
      have := (List.nodup_cons.mp ih.2).2
      exact fun hh =>
        List.disjoint_of_nodup_append this hh (List.mem_cons_self el' t)
    rw [List.erase_append_right (el' :: t) hs, List.erase_cons_head]
    exact isList_DEL _ _ _ _ _ ih
  | del_reinit hb hmem ih =>
    rename_i h' head' l' el'
    obtain ⟨s, t, rfl⟩ := List.append_of_mem hmem
    have hs : el' ∉ s := by
      have := (List.nodup_cons.mp ih.2).2
      exact fun hh =>
        List.disjoint_of_nodup_append this hh (List.mem_cons_self el' t)
    rw [List.erase_append_right (el' :: t) hs, List.erase_cons_head]
    exact (isList_DEL_INIT _ _ _ _ _ ih).1

/-- On a well-formed list, reachability by next pointers stays within
`head :: l`. -/
theorem reachN_mem {h : Heap} {head : Nat} {l : List Nat}
    (hl : isList h head l) {x : Nat} (hr : reachN h head x) :
    x ∈ head :: l := by
  induction hr with
  | refl => simp
  | step hr ih =>
    rename_i y
    have := (chainLinks_forward head l hl.1 y ih).2
    simp only [List.mem_append, List.mem_singleton, List.mem_cons] at this ⊢
    tauto

/-!
### Further helper lemmas
-/

theorem exampleHeap_isList : isList exampleHeap 0 [2, 3] := by
  constructor
  · simp [chainLinks, links, exampleHeap]
  · decide

theorem exampleHeap2_isList : isList exampleHeap2 0 [2] := by
  constructor
  · simp [chainLinks, links, exampleHeap2]
  · decide

/-- Macro `LIST_DEL_INIT` performs exactly the writes of `LIST_DEL` followed by
`LIST_INIT` of the removed node. -/
theorem LIST_DEL_INIT_eq (h : Heap) (el : Nat) :
    (LIST_DEL_INIT h el).2 = LIST_INIT (LIST_DEL h el).2 el := by
  rw [LIST_DEL_INIT_snd, LIST_DEL_snd]; rfl

/-- A node occurring in the middle of a duplicate-free list occurs
nowhere else. -/
theorem nodup_middle_notin {head el : Nat} {l1 l2 : List Nat}
    (hN : (head :: (l1 ++ el :: l2)).Nodup) :
    el ≠ head ∧ el ∉ l1 ∧ el ∉ l2 ∧ el ∉ head :: (l1 ++ l2) := by
  have h1 := List.nodup_cons.mp hN
  have hrest := h1.2
  have hel_head : el ≠ head := fun hh =>
    h1.1 (hh ▸ (by simp : el ∈ l1 ++ el :: l2))
  have hel_l1 : el ∉ l1 := fun hh =>
    List.disjoint_of_nodup_append hrest hh (by simp)
  have hel_l2 : el ∉ l2 := (List.nodup_cons.mp hrest.of_append_right).1
  refine ⟨hel_head, hel_l1, hel_l2, ?_⟩
  simp only [List.mem_cons, List.mem_append]
  rintro (hh | hh | hh)
  · exact hel_head hh
  · exact hel_l1 hh
  · exact hel_l2 hh

/-- On a well-formed list, a linked node is not its own neighbor. -/
theorem isList_middle_facts (h : Heap) (head el : Nat) (l1 l2 : List Nat)
    (hl : isList h head (l1 ++ el :: l2)) :
    (h el).n ≠ el ∧ (h el).p ≠ el := by
  obtain ⟨hc, hN⟩ := hl
  rw [chainLinks_append el head l1 l2 head] at hc
  have hmid := nodup_middle_notin hN
  have hn_mem : (h el).n ∈ l2 ++ [head] := chainLinks_next_mem hc.2
  have hp_mem : (h el).p ∈ head :: l1 := chainLinks_prev_mem head l1 hc.1
  constructor
  · intro hh
    rw [hh] at hn_mem
    simp only [List.mem_append, List.mem_singleton] at hn_mem
    rcases hn_mem with hcase | hcase
    · exact hmid.2.2.1 hcase
    · exact hmid.1 hcase
  · intro hh
    rw [hh] at hp_mem
    rcases List.mem_cons.mp hp_mem with hcase | hcase
    · exact hmid.1 hcase
    · exact hmid.2.1 hcase

/-!
### Helper lemmas about the locked family, single uncontended thread
-/

/-- Running `LIST_POP_LOCKED` on an empty head: the busy exchange on `lh->n` is
undone and the iteration breaks at once with NULL, the heap unchanged. -/
theorem popLocked_empty (h : Heap) (lh : Nat)
    (hn : (h lh).n = lh) (hlh : lh ≠ LLIST_BUSY) :
    LIST_POP_LOCKED_body h lh = Sum.inr (h, none) := by
  have hheap : setN (setN h lh LLIST_BUSY) lh lh = h := by
    funext x
    refine Node.ext' _ _ ?_ ?_ <;> by_cases hx : x = lh <;> simp [hx, hn]
  simp [LIST_POP_LOCKED_body, hn, hlh, hheap]

/-- A head whose next slot already holds the busy marker makes
`LIST_ADD_LOCKED` spin forever. -/
theorem addLocked_spin (lh el : Nat) :
    ∀ (fuel : Nat) (h : Heap), (h lh).n = LLIST_BUSY →
      lockedRun (fun hh => LIST_ADD_LOCKED_body hh lh el) fuel h = none := by
  intro fuel
  induction fuel with
  | zero => intro h _; rfl
  | succ k ih =>
    intro h hbusy
    have hbody : LIST_ADD_LOCKED_body h lh el =
        Sum.inl (setN h lh LLIST_BUSY) := by
      simp [LIST_ADD_LOCKED_body, hbusy]
    simp only [lockedRun, hbody]
    exact ih _ (by simp)

/-- A node whose next slot already holds the busy marker makes
`LIST_DEL_LOCKED` spin forever. -/
theorem delLocked_spin (el : Nat) :
    ∀ (fuel : Nat) (h : Heap), (h el).n = LLIST_BUSY →
      lockedRun (fun hh => LIST_DEL_LOCKED_body hh el) fuel h = none := by
  intro fuel
  induction fuel with
  | zero => intro h _; rfl
  | succ k ih =>
    intro h hbusy
    have hbody : LIST_DEL_LOCKED_body h el =
        Sum.inl (setN h el LLIST_BUSY) := by
      simp [LIST_DEL_LOCKED_body, hbusy]
    simp only [lockedRun, hbody]
    exact ih _ (by simp)

/-- A head whose next slot already holds the busy marker makes
`LIST_POP_LOCKED` spin forever. -/
theorem popLocked_spin (lh : Nat) :
    ∀ (fuel : Nat) (h : Heap), (h lh).n = LLIST_BUSY →
      popRun lh fuel h = none := by
  intro fuel
  induction fuel with
  | zero => intro h _; rfl
  | succ k ih =>
    intro h hbusy
    have hbody : LIST_POP_LOCKED_body h lh =
        Sum.inl (setN h lh LLIST_BUSY) := by
      simp [LIST_POP_LOCKED_body, hbusy]
    simp only [popRun, hbody]
    exact ih _ (by simp)

/-- An uncontended `LIST_DEL_LOCKED` iteration succeeds at once and its
final heap is exactly the heap `LIST_DEL_INIT` produces. -/
theorem delLocked_uncontended (h : Heap) (el : Nat)
    (hn : (h el).n ≠ LLIST_BUSY) (hp : (h el).p ≠ LLIST_BUSY)
    (hpn : (h el).p ≠ el → (h ((h el).p)).n ≠ LLIST_BUSY)
    (hnp : (h el).n ≠ el → (h ((h el).n)).p ≠ LLIST_BUSY) :
    LIST_DEL_LOCKED_body h el =
      Sum.inr (upd (setN (setP h ((h el).n) ((h el).p)) ((h el).p) ((h el).n))
        el ⟨el, el⟩) := by
  by_cases hpel : (h el).p = el
  · have hel_busy : el ≠ LLIST_BUSY := hpel ▸ hp
    by_cases hnel : (h el).n = el
    · have hbody : LIST_DEL_LOCKED_body h el = Sum.inr
          (delLockedFinish (setP (setN h el LLIST_BUSY) el LLIST_BUSY)
            el el el) := by
        simp [LIST_DEL_LOCKED_body, hn, hp, hpel, hnel, hel_busy]
      rw [hbody, hpel, hnel]
      refine congrArg Sum.inr ?_
      funext x
      by_cases hx : x = el <;>
        refine Node.ext' _ _ ?_ ?_ <;> simp [delLockedFinish, hx]
    · have hbody : LIST_DEL_LOCKED_body h el = Sum.inr
          (delLockedFinish
            (setP (setP (setN h el LLIST_BUSY) el LLIST_BUSY)
              ((h el).n) LLIST_BUSY) el ((h el).n) el) := by
        simp [LIST_DEL_LOCKED_body, hn, hp, hpel, hnel, hel_busy, hnp hnel]
      rw [hbody, hpel]
      refine congrArg Sum.inr ?_
      funext x
      by_cases hx1 : x = el <;> by_cases hx2 : x = (h el).n <;>
        refine Node.ext' _ _ ?_ ?_ <;>
          simp_all [delLockedFinish]
  · by_cases hnel : (h el).n = el
    · have hel_busy : el ≠ LLIST_BUSY := hnel ▸ hn
      have hbody : LIST_DEL_LOCKED_body h el = Sum.inr
          (delLockedFinish
            (setN (setP (setN h el LLIST_BUSY) el LLIST_BUSY)
              ((h el).p) LLIST_BUSY) el el ((h el).p)) := by
        simp [LIST_DEL_LOCKED_body, hn, hp, hpel, hnel, hel_busy, hpn hpel]
      rw [hbody, hnel]
      refine congrArg Sum.inr ?_
      funext x
      by_cases hx1 : x = el <;> by_cases hx3 : x = (h el).p <;>
        refine Node.ext' _ _ ?_ ?_ <;>
          simp_all [delLockedFinish]
    · have hbody : LIST_DEL_LOCKED_body h el = Sum.inr
          (delLockedFinish
            (setP (setN (setP (setN h el LLIST_BUSY) el LLIST_BUSY)
              ((h el).p) LLIST_BUSY) ((h el).n) LLIST_BUSY)
            el ((h el).n) ((h el).p)) := by
        simp [LIST_DEL_LOCKED_body, hn, hp, hpel, hnel, hpn hpel, hnp hnel]
      rw [hbody]
      refine congrArg Sum.inr ?_
      funext x
      by_cases hmn : (h el).n = (h el).p <;>
        by_cases hx1 : x = el <;> by_cases hx2 : x = (h el).n <;>
          by_cases hx3 : x = (h el).p <;>
            refine Node.ext' _ _ ?_ ?_ <;>
              simp_all [delLockedFinish]

/-!
### The claims
-/

/-- C1: for every list built solely with the unsynchronized operations
(LIST_ADD, LIST_ADDQ, LIST_DEL, LIST_DEL_INIT) starting from an
initialized head, at every point between calls the circular invariant
holds: `head->n->p == head`, and every node `x` reachable from the head
by following next pointers satisfies `x->n->p == x` and `x->p->n == x`. -/
theorem C1_unsync_invariant (h : Heap) (head : Nat) (l : List Nat)
    (hb : Built h head l) :
    (h ((h head).n)).p = head ∧
    ∀ x, reachN h head x → (h ((h x).n)).p = x ∧ (h ((h x).p)).n = x := by
  have hl := Built_isList hb
  constructor
  · exact (chainLinks_forward head l hl.1 head (by simp)).1
  · intro x hr
    have hx := reachN_mem hl hr
    refine ⟨(chainLinks_forward head l hl.1 x hx).1, ?_⟩
    have hx2 : x ∈ l ++ [head] := by
      simp only [List.mem_cons] at hx
      simp only [List.mem_append, List.mem_singleton]
      tauto
    exact (chainLinks_backward head l hl.1 x hx2).1

theorem C1_unsync_invariant_witness :
    Built (LIST_ADD (LIST_INIT detachedHeap 5) 5 7).2 5 [7] ∧
    ((LIST_ADD (LIST_INIT detachedHeap 5) 5 7).2
      (((LIST_ADD (LIST_INIT detachedHeap 5) 5 7).2 5).n)).p = 5 := by
  have hb : Built (LIST_ADD (LIST_INIT detachedHeap 5) 5 7).2 5 [7] :=
    Built.add (Built.init detachedHeap 5) (by decide)
  exact ⟨hb, (C1_unsync_invariant _ _ _ hb).1⟩

/-- C2: from an initialized empty head `H` and detached nodes `A`, `B`,
two tail insertions `LIST_ADDQ H A; LIST_ADDQ H B` make forward
traversal from `H` yield `[A, B]`, while two head insertions
`LIST_ADD H A; LIST_ADD H B` make it yield `[B, A]`. -/
theorem C2_order_preservation (h : Heap) (H A B : Nat)
    (hHA : H ≠ A) (hHB : H ≠ B) (hAB : A ≠ B)
    (hH : h H = ⟨H, H⟩) (hA : h A = ⟨A, A⟩) (hB : h B = ⟨B, B⟩) :
    (∀ fuel,
      traverse (LIST_ADDQ (LIST_ADDQ h H A).2 H B).2 H (fuel + 3) = [A, B]) ∧
    (∀ fuel,
      traverse (LIST_ADD (LIST_ADD h H A).2 H B).2 H (fuel + 3) = [B, A]) := by
  have hAH := Ne.symm hHA
  have hBH := Ne.symm hHB
  have hBA := Ne.symm hAB
  constructor
  · have q1 : (LIST_ADDQ h H A).2 H = ⟨A, A⟩ := by
      refine Node.ext' _ _ ?_ ?_ <;> simp [LIST_ADDQ, hH, hAH, hHA]
    have q2 : (LIST_ADDQ h H A).2 A = ⟨H, H⟩ := by
      refine Node.ext' _ _ ?_ ?_ <;> simp [LIST_ADDQ, hH, hAH, hHA]
    set g := (LIST_ADDQ h H A).2 with hg
    have e1 : ((LIST_ADDQ g H B).2 H).n = A := by
      simp [LIST_ADDQ, q1, hHB, hBH, hHA]
    have e2 : ((LIST_ADDQ g H B).2 A).n = B := by
      simp [LIST_ADDQ, q1, hAB, hBH]
    have e3 : ((LIST_ADDQ g H B).2 B).n = H := by
      simp [LIST_ADDQ]
    intro fuel
    show traverseAux (LIST_ADDQ g H B).2 H
      (((LIST_ADDQ g H B).2 H).n) (fuel + 1 + 1 + 1) = [A, B]
    rw [e1]
    simp [traverseAux, e2, e3, hAH, hBH]
  · have a1 : (LIST_ADD h H A).2 H = ⟨A, A⟩ := by
      refine Node.ext' _ _ ?_ ?_ <;> simp [LIST_ADD, hH, hAH, hHA]
    have a2 : (LIST_ADD h H A).2 A = ⟨H, H⟩ := by
      refine Node.ext' _ _ ?_ ?_ <;> simp [LIST_ADD, hH, hAH, hHA]
    set g2 := (LIST_ADD h H A).2 with hg2
    have f1 : ((LIST_ADD g2 H B).2 H).n = B := by
      simp [LIST_ADD, a1, hHB, hBH, hHA]
    have f2 : ((LIST_ADD g2 H B).2 B).n = A := by
      simp [LIST_ADD, a1, hBH]
    have f3 : ((LIST_ADD g2 H B).2 A).n = H := by
      simp [LIST_ADD, a1, a2, hAH, hAB, hBH]
    intro fuel
    show traverseAux (LIST_ADD g2 H B).2 H
      (((LIST_ADD g2 H B).2 H).n) (fuel + 1 + 1 + 1) = [B, A]
    rw [f1]
    simp [traverseAux, f2, f3, hAH, hBH]

theorem C2_order_preservation_witness :
    detachedHeap 0 = ⟨0, 0⟩ ∧
    traverse (LIST_ADDQ (LIST_ADDQ detachedHeap 0 2).2 0 3).2 0 (0 + 3) =
      [2, 3] ∧
    traverse (LIST_ADD (LIST_ADD detachedHeap 0 2).2 0 3).2 0 (0 + 3) =
      [3, 2] :=
  ⟨rfl,
    (C2_order_preservation detachedHeap 0 2 3 (by decide) (by decide)
      (by decide) rfl rfl rfl).1 0,
    (C2_order_preservation detachedHeap 0 2 3 (by decide) (by decide)
      (by decide) rfl rfl rfl).2 0⟩

/-- C3: from an initialized empty head `H` and a detached node `A`,
`LIST_ADD(H, A)` followed by `LIST_DEL_INIT(A)` leaves `H` empty
(`LIST_ISEMPTY` holds and `H->p == H`) and `A` detached
(`A->n == A->p == A`). -/
theorem C3_round_trip (h : Heap) (H A : Nat) (hHA : H ≠ A)
    (hH : h H = ⟨H, H⟩) (hA : h A = ⟨A, A⟩) :
    LIST_ISEMPTY (LIST_DEL_INIT (LIST_ADD h H A).2 A).2 H = true ∧
    ((LIST_DEL_INIT (LIST_ADD h H A).2 A).2 H).p = H ∧
    ((LIST_DEL_INIT (LIST_ADD h H A).2 A).2 A).n = A ∧
    ((LIST_DEL_INIT (LIST_ADD h H A).2 A).2 A).p = A := by
  have hAH := Ne.symm hHA
  have a1 : (LIST_ADD h H A).2 H = ⟨A, A⟩ := by
    refine Node.ext' _ _ ?_ ?_ <;> simp [LIST_ADD, hH, hAH, hHA]
  have a2 : (LIST_ADD h H A).2 A = ⟨H, H⟩ := by
    refine Node.ext' _ _ ?_ ?_ <;> simp [LIST_ADD, hH, hAH, hHA]
  set g := (LIST_ADD h H A).2 with hg
  refine ⟨?_, ?_, ?_, ?_⟩ <;>
    simp [LIST_ISEMPTY, LIST_DEL_INIT, a1, a2, hHA, hAH]

theorem C3_round_trip_witness :
    detachedHeap 0 = ⟨0, 0⟩ ∧ detachedHeap 2 = ⟨2, 2⟩ ∧
    LIST_ISEMPTY (LIST_DEL_INIT (LIST_ADD detachedHeap 0 2).2 2).2 0 = true ∧
    ((LIST_DEL_INIT (LIST_ADD detachedHeap 0 2).2 2).2 2).n = 2 :=
  ⟨rfl, rfl,
    (C3_round_trip detachedHeap 0 2 (by decide) rfl rfl).1,
    (C3_round_trip detachedHeap 0 2 (by decide) rfl rfl).2.2.1⟩

/-- C4: `LIST_DEL_INIT(el)` produces exactly the same final state on
every node as `LIST_DEL(el)` followed by `LIST_INIT(el)`: the neighbors
are rewired to skip the node, the node ends in the detached state
`n == p == self`, and both macros return the node. -/
theorem C4_del_init_equiv (h : Heap) (el : Nat) :
    (LIST_DEL_INIT h el).1 = el ∧ (LIST_DEL h el).1 = el ∧
    (∀ x, (LIST_DEL_INIT h el).2 x = LIST_INIT (LIST_DEL h el).2 el x) ∧
    (LIST_DEL_INIT h el).2 el = ⟨el, el⟩ := by
  refine ⟨rfl, rfl, fun x => by rw [LIST_DEL_INIT_eq], ?_⟩
  rw [LIST_DEL_INIT_snd]
  simp

/-- C5: on a well-formed list, `LIST_DEL(el)` rewires only the two
neighbor slots (`el->p->n` becomes the old successor, `el->n->p` the old
predecessor), leaves the node's own pointers stale at the old neighbors,
leaves every other node unchanged, and returns the removed node.  The
last two conjuncts characterize both fields of every node of the final
heap, so in particular the predecessor's prev field and the successor's
next field are untouched: the footprint is exactly the two neighbor
slots. -/
theorem C5_del_frame (h : Heap) (head el : Nat) (l1 l2 : List Nat)
    (hl : isList h head (l1 ++ el :: l2)) :
    (LIST_DEL h el).1 = el ∧
    ((LIST_DEL h el).2 ((h el).p)).n = (h el).n ∧
    ((LIST_DEL h el).2 ((h el).n)).p = (h el).p ∧
    ((LIST_DEL h el).2 el).n = (h el).n ∧
    ((LIST_DEL h el).2 el).p = (h el).p ∧
    (∀ x, x ≠ (h el).n → x ≠ (h el).p → (LIST_DEL h el).2 x = h x) ∧
    (∀ x, ((LIST_DEL h el).2 x).n =
      if x = (h el).p then (h el).n else (h x).n) ∧
    (∀ x, ((LIST_DEL h el).2 x).p =
      if x = (h el).n then (h el).p else (h x).p) := by
  obtain ⟨hne, hpe⟩ := isList_middle_facts h head el l1 l2 hl
  simp only [LIST_DEL_snd]
  refine ⟨rfl, by simp, by simp, ?_, ?_, ?_, ?_, ?_⟩
  · simp [Ne.symm hpe]
  · simp [Ne.symm hne]
  · intro x hx1 hx2
    refine Node.ext' _ _ ?_ ?_ <;> simp [hx1, hx2]
  · intro x; simp
  · intro x; simp

theorem C5_del_frame_witness :
    isList exampleHeap 0 ([] ++ 2 :: [3]) ∧
    ((LIST_DEL exampleHeap 2).2 ((exampleHeap 2).p)).n = (exampleHeap 2).n ∧
    ((LIST_DEL exampleHeap 2).2 2).n = (exampleHeap 2).n ∧
    ((LIST_DEL exampleHeap 2).2 3).n =
      (if (3 : Nat) = (exampleHeap 2).p then (exampleHeap 2).n
        else (exampleHeap 3).n) ∧
    ((LIST_DEL exampleHeap 2).2 3).p =
      (if (3 : Nat) = (exampleHeap 2).n then (exampleHeap 2).p
        else (exampleHeap 3).p) :=
  ⟨exampleHeap_isList,
    (C5_del_frame exampleHeap 0 2 [] [3] exampleHeap_isList).2.1,
    (C5_del_frame exampleHeap 0 2 [] [3] exampleHeap_isList).2.2.2.1,
    (C5_del_frame exampleHeap 0 2 [] [3] exampleHeap_isList).2.2.2.2.2.2.1 3,
    (C5_del_frame exampleHeap 0 2 [] [3] exampleHeap_isList).2.2.2.2.2.2.2 3⟩

/-- C6: `LIST_ADDED(el)` returns true iff `el->n != el`; consequently a
node removed from a well-formed list (which always has a head) by plain
`LIST_DEL` without re-initialization still reports as linked although it
is no longer a member of the list. -/
theorem C6_added_iff :
    (∀ (g : Heap) (x : Nat), LIST_ADDED g x = true ↔ (g x).n ≠ x) ∧
    (∀ (h : Heap) (head el : Nat) (l1 l2 : List Nat),
      isList h head (l1 ++ el :: l2) →
      LIST_ADDED (LIST_DEL h el).2 el = true ∧
      isList (LIST_DEL h el).2 head (l1 ++ l2) ∧
      el ∉ head :: (l1 ++ l2)) := by
  constructor
  · intro g x
    simp [LIST_ADDED]
  · intro h head el l1 l2 hl
    obtain ⟨hne, hpe⟩ := isList_middle_facts h head el l1 l2 hl
    have hmid := nodup_middle_notin hl.2
    refine ⟨?_, isList_DEL h head el l1 l2 hl, hmid.2.2.2⟩
    have hstale : ((LIST_DEL h el).2 el).n = (h el).n := by
      rw [LIST_DEL_snd]
      simp [Ne.symm hpe]
    simp [LIST_ADDED, hstale, hne]

theorem C6_added_iff_witness :
    isList exampleHeap 0 ([] ++ 2 :: [3]) ∧
    LIST_ADDED (LIST_DEL exampleHeap 2).2 2 = true ∧
    (2 : Nat) ∉ (0 : Nat) :: ([] ++ [3]) :=
  ⟨exampleHeap_isList,
    (C6_added_iff.2 exampleHeap 0 2 [] [3] exampleHeap_isList).1,
    (C6_added_iff.2 exampleHeap 0 2 [] [3] exampleHeap_isList).2.2⟩

/-- C7: `LIST_POP_LOCKED` on an initialized empty head, executed without
contention, returns NULL and leaves the head exactly as it was on entry:
the transient busy exchange on `lh->n` is undone before returning. -/
theorem C7_pop_locked_empty (h : Heap) (lh : Nat)
    (hn : (h lh).n = lh) (hp : (h lh).p = lh) (hlh : lh ≠ LLIST_BUSY) :
    LIST_POP_LOCKED_body h lh = Sum.inr (h, none) ∧
    ∀ fuel, popRun lh (fuel + 1) h = some (h, none) := by
  have hbody := popLocked_empty h lh hn hlh
  exact ⟨hbody, fun fuel => by simp [popRun, hbody]⟩

theorem C7_pop_locked_empty_witness :
    (detachedHeap 5).n = 5 ∧ (detachedHeap 5).p = 5 ∧
    (5 : Nat) ≠ LLIST_BUSY ∧
    popRun 5 (0 + 1) detachedHeap = some (detachedHeap, none) :=
  ⟨rfl, rfl, by decide,
    (C7_pop_locked_empty detachedHeap 5 rfl rfl (by decide)).2 0⟩

/-- C8: `LIST_DEL_LOCKED(el)`, executed without contention (no involved
slot holds the busy marker; the predecessor's next slot only matters
when `el->p != el`, the successor's prev slot only when `el->n != el`),
succeeds in one iteration: the predecessor's next is rewired to the
successor and the successor's prev to the predecessor (self-links being
skipped when the node was the sole element), the node ends detached
(`n == p == self`), and no other node changes. -/
theorem C8_del_locked_uncontended (h : Heap) (el : Nat)
    (hn : (h el).n ≠ LLIST_BUSY) (hp : (h el).p ≠ LLIST_BUSY)
    (hpn : (h el).p ≠ el → (h ((h el).p)).n ≠ LLIST_BUSY)
    (hnp : (h el).n ≠ el → (h ((h el).n)).p ≠ LLIST_BUSY) :
    ∃ h', LIST_DEL_LOCKED_body h el = Sum.inr h' ∧
      (h' el).n = el ∧ (h' el).p = el ∧
      ((h el).p ≠ el → (h' ((h el).p)).n = (h el).n) ∧
      ((h el).n ≠ el → (h' ((h el).n)).p = (h el).p) ∧
      (∀ x, x ≠ el → x ≠ (h el).n → x ≠ (h el).p → h' x = h x) := by
  refine ⟨_, delLocked_uncontended h el hn hp hpn hnp, ?_, ?_, ?_, ?_, ?_⟩
  · simp
  · simp
  · intro hpe; simp [hpe]
  · intro hne; simp [hne]
  · intro x hx1 hx2 hx3
    refine Node.ext' _ _ ?_ ?_ <;> simp [hx1, hx2, hx3]

theorem C8_del_locked_uncontended_witness :
    ((exampleHeap2 2).n ≠ LLIST_BUSY ∧ (exampleHeap2 2).p ≠ LLIST_BUSY) ∧
    ∃ h', LIST_DEL_LOCKED_body exampleHeap2 2 = Sum.inr h' ∧
      (h' 2).n = 2 ∧ (h' 2).p = 2 ∧
      ((exampleHeap2 2).p ≠ 2 → (h' ((exampleHeap2 2).p)).n = (exampleHeap2 2).n) ∧
      ((exampleHeap2 2).n ≠ 2 → (h' ((exampleHeap2 2).n)).p = (exampleHeap2 2).p) ∧
      (∀ x, x ≠ 2 → x ≠ (exampleHeap2 2).n → x ≠ (exampleHeap2 2).p →
        h' x = exampleHeap2 x) :=
  ⟨⟨by decide, by decide⟩,
    C8_del_locked_uncontended exampleHeap2 2 (by decide) (by decide)
      (fun _ => by decide) (fun _ => by decide)⟩

/-- C10: the reserved busy marker is the pointer value 1 and the static
head value ILH stores that same value 1 in its next slot, so a head left
in the ILH state violates the locked family's precondition that no slot
legitimately holds the busy marker: `LIST_ADD_LOCKED`,
`LIST_DEL_LOCKED` and `LIST_POP_LOCKED` on such a head spin forever
(no amount of fuel makes their retry loop terminate). -/
theorem C10_ilh_busy_marker :
    ILH.n = LLIST_BUSY ∧
    (∀ (h : Heap) (lh el fuel : Nat), h lh = ILH →
      lockedRun (fun hh => LIST_ADD_LOCKED_body hh lh el) fuel h = none) ∧
    (∀ (h : Heap) (el fuel : Nat), h el = ILH →
      lockedRun (fun hh => LIST_DEL_LOCKED_body hh el) fuel h = none) ∧
    (∀ (h : Heap) (lh fuel : Nat), h lh = ILH →
      popRun lh fuel h = none) := by
  refine ⟨rfl, ?_, ?_, ?_⟩
  · intro h lh el fuel hh
    exact addLocked_spin lh el fuel h (by simp [hh, ILH, LLIST_BUSY])
  · intro h el fuel hh
    exact delLocked_spin el fuel h (by simp [hh, ILH, LLIST_BUSY])
  · intro h lh fuel hh
    exact popLocked_spin lh fuel h (by simp [hh, ILH, LLIST_BUSY])

theorem C10_ilh_busy_marker_witness :
    ((fun _ => ILH : Heap) 0 = ILH) ∧
    lockedRun (fun hh => LIST_ADD_LOCKED_body hh 0 4) 7 (fun _ => ILH) = none ∧
    popRun 0 7 (fun _ => ILH) = none :=
  ⟨rfl,
    C10_ilh_busy_marker.2.1 (fun _ => ILH) 0 4 7 rfl,
    C10_ilh_busy_marker.2.2.2 (fun _ => ILH) 0 7 rfl⟩

end MiniClist
